import Mathlib

/-!
Verification development for the automaton toolkit of the `horospheres`
repository.

The first part embeds the minimal automaton module `automaton_MWE.py`
(class `Automaton` with its eager transition index `_dict`, the `process`
word-recognition routine, and the `intersection` product construction).
Every dynamic type guard of that module calls `hasattr` with a
non-string attribute name (`typing.Hashable` / `typing.Iterable`),
which raises `TypeError` unconditionally in Python 3; the embedding
models those always-raising guards (`pyHasattrNonStringName`,
`fsmStateNew`, and the guarded `process` and `intersection`) and keeps
the code they hide as separate definitions (`processFrom`,
`intersectionBody`) to state what the spec describes.
The second part embeds the sage-style automata used by
`enhanced_automaton.py` / `concatable_automaton.py`
(`unambiguous_concatenation`, `_interspersal`) and the breadth-first
machine generators of `rips_fsm_generator.py`
(`__shortlex_machine`, `__geodesic_machine`), together with the
constructor validation of `rips_fsm_generator.py` and
`divergence_fsm_generator.py`, and the label freeze/thaw helpers
`_mutable_label` / `_hashable_label` of `divergence_fsm_generator.py`.
-/

set_option maxRecDepth 40000

namespace Horospheres

/-! ## Part 1: the `automaton_MWE.py` model

`FSMState` (automaton_MWE.py lines 8-46): a hashable label plus the two
flags.  Equality compares the label and both flags (lines 37-40). -/

structure MWEState (L : Type) where
  label : L
  is_initial : Bool
  is_final : Bool
deriving DecidableEq, Repr

/-- A transition `(from_state, to_state, word_in)` of `automaton_MWE.py`
(class `FSMTransition`, lines 48-83), stored as a triple
`(from_state, word_in, to_state)`. -/
abbrev MWETransition (L S : Type) := MWEState L × S × MWEState L

/-- The data of `automaton_MWE.Automaton` that `process` and
`intersection` read: the state set, the transition set (kept as a list:
the iteration order of the Python set is fixed per object), and the
unique initial state (`self._initial_state`, line 121). -/
structure MWEAutomaton (L S : Type) where
  states : List (MWEState L)
  transitions : List (MWETransition L S)
  initial : MWEState L
deriving DecidableEq

variable {L S L2 : Type} [DecidableEq L] [DecidableEq S] [DecidableEq L2]

/-- `self._dict[q][c]` (automaton_MWE.py lines 123-132): the eager index
from `(state, symbol)` to the destination.  With nonduplicated
deterministic transitions the first match is the unique one. -/
def dictLookup (M : MWEAutomaton L S) (q : MWEState L) (c : S) :
    Option (MWEState L) :=
  (M.transitions.find? (fun t => decide (t.1 = q ∧ t.2.1 = c))).map
    (fun t => t.2.2)

/-- The errors the embedded `automaton_MWE.py` operations can raise. -/
inductive MWEErr where
  | typeErr
  | valueErr
  | keyErr
  | emptyLanguage
deriving DecidableEq, Repr

/-- Every dynamic type guard in automaton_MWE.py is written
`hasattr(x, typing.Hashable)` or `hasattr(x, typing.Iterable)` (lines
11, 13 by analogy, 55, 152, 165, 301): the attribute-name argument is
the non-string `typing.Hashable`/`typing.Iterable` object, and Python
3's `hasattr` requires a string attribute name, so the call raises
`TypeError: attribute name must be string` before the guarded test can
yield a value. -/
def pyHasattrNonStringName : Except MWEErr Bool :=
  .error .typeErr

/-- `FSMState.__init__` (automaton_MWE.py lines 10-19): line 11 runs
`hasattr(label, typing.Hashable)`, which raises on every call, so no
`FSMState` can ever be constructed.  The value behind the guard is the
state that the constructor intends to build. -/
def fsmStateNew (label : L) (isInit isFin : Bool) :
    Except MWEErr (MWEState L) :=
  pyHasattrNonStringName.bind (fun b =>
    if b = false then .error .typeErr
    else .ok ⟨label, isInit, isFin⟩)

/-- The loop body of `Automaton.process` (automaton_MWE.py lines
304-312), started from an arbitrary current state.  This is the
behaviour the spec describes; in the source it is dead code behind the
line-301 guard (see `process`). -/
def processFrom (M : MWEAutomaton L S) : MWEState L → List S → Bool × Option L
  | q, [] => (q.is_final, some q.label)
  | q, c :: rest =>
    match dictLookup M q c with
    | some q' => processFrom M q' rest
    | none => (false, none)

/-- `Automaton.process(input_tape)` (automaton_MWE.py lines 299-312):
line 301 runs `hasattr(input_tape, typing.Iterable)` with a non-string
attribute name, a `TypeError` on every call; only past that guard (and
its line-302 raise) would the loop of lines 304-312 run from the
initial state. -/
def process (M : MWEAutomaton L S) (w : List S) :
    Except MWEErr (Bool × Option L) :=
  pyHasattrNonStringName.bind (fun b =>
    if b = false then .error .typeErr
    else .ok (processFrom M M.initial w))

/-- Acceptance as the spec means it: the recognition loop (lines
304-312) run from the initial state reports `True` in its first
component.  (The real `process` never reports anything - its line-301
guard raises first.) -/
def accepts (M : MWEAutomaton L S) (w : List S) : Bool :=
  (processFrom M M.initial w).1

/-- The left-to-right iterate of the transition index: consume the
symbols one at a time through `dictLookup`, `none` once a symbol has no
transition. -/
def deltaStar (M : MWEAutomaton L S) (o : Option (MWEState L))
    (w : List S) : Option (MWEState L) :=
  w.foldl (fun acc c => acc.bind (fun q => dictLookup M q c)) o

theorem deltaStar_nil (M : MWEAutomaton L S) (o : Option (MWEState L)) :
    deltaStar M o [] = o := rfl

theorem deltaStar_cons (M : MWEAutomaton L S) (o : Option (MWEState L))
    (c : S) (w : List S) :
    deltaStar M (o.bind (fun q => dictLookup M q c)) w
      = deltaStar M o (c :: w) := rfl

theorem deltaStar_none (M : MWEAutomaton L S) (w : List S) :
    deltaStar M none w = none := by
  induction w with
  | nil => rfl
  | cons c rest ih => simpa [deltaStar] using ih

/-- **C1 (code bug).** The real `process` raises `TypeError` on every
call: line 301 passes the non-string `typing.Iterable` to `hasattr`,
before the loop ever runs, so `process` never returns an
`(accepted, end_label)` pair.  The recognition loop it guards (lines
304-312) implements exactly the claimed behaviour: it consumes the
input left to right following the transition index `deltaStar`,
returns the not-accepted pair `(false, none)` on the first symbol
without a transition, and the `is_final` flag and label of the reached
state on exhausting the input. -/
theorem process_always_raises (M : MWEAutomaton L S) (w : List S) :
    process M w = .error .typeErr
    ∧ processFrom M M.initial w =
      match deltaStar M (some M.initial) w with
      | some q => (q.is_final, some q.label)
      | none => (false, none) := by
  refine ⟨rfl, ?_⟩
  generalize M.initial = q
  induction w generalizing q with
  | nil => rfl
  | cons c rest ih =>
    show processFrom M q (c :: rest) = _
    rw [processFrom]
    rcases h : dictLookup M q c with _ | q'
    · have : deltaStar M (some q) (c :: rest) = none := by
        have := deltaStar_cons M (some q) c rest
        rw [← this]
        simp [h, deltaStar_none]
      rw [this]
    · have : deltaStar M (some q) (c :: rest)
          = deltaStar M (some q') rest := by
        have := deltaStar_cons M (some q) c rest
        rw [← this]
        simp [h]
      rw [this]
      exact ih q'

/-! ### The `intersection` product construction (automaton_MWE.py 190-247)

The Python source raises several kinds of exceptions:
* every `FSMState(...)` / `FSMTransition(...)` construction raises
  `TypeError` through the line-11 / line-55 `hasattr` misuse
  (`pyHasattrNonStringName`), so the very first statement of the
  product construction that runs - line 201 - raises on every call;
* the constructor `Automaton.__init__` subscripts the *set*
  `state_set` at lines 97-99 (`state_set[i]`), a `TypeError` as soon as
  the double loop body runs, i.e. whenever there are two or more states;
* the BFS body of `intersection` keys `self.dict` — a dictionary keyed
  by `FSMState` objects — with the bare label `state.label[0]`
  (line 228), an uncaught `KeyError` for every popped state that is not
  skipped by the `finished_states` test;
* `ValueError` for the constructor validation and for
  `'No final state is reached...'` (line 245), the empty-language case.

The construction past line 201 is dead code; `intersectionBody` below
embeds it with the unconditional `FSMState`/`FSMTransition`
constructor `TypeError`s stripped (the other failure modes retained),
to express what the spec describes; the faithful `intersection` runs
the line-201 construction first and therefore always raises. -/

/-- `Automaton.__init__` (automaton_MWE.py lines 88-132) applied to a
state set and a transition set (Python sets: duplicates collapse).
Checks, in source order: the label-uniqueness double loop of lines
97-99, which subscripts the set `state_set` and hence is a `TypeError`
whenever at least two states exist; endpoints of transitions belong to
the state set (lines 102-104); exactly one initial state (lines
106-111, the retained initial state is the first one in order); at
least one final state (lines 114-116); and the eager dictionary build
of lines 123-132, which raises whenever a `(from_state, word_in)` key
is hit twice. -/
def mkMWEAutomaton (stateList : List (MWEState L))
    (transList : List (MWETransition L S)) :
    Except MWEErr (MWEAutomaton L S) :=
  if 2 ≤ stateList.dedup.length then .error .typeErr
  else if ¬ (∀ t ∈ transList.dedup,
      t.1 ∈ stateList.dedup ∧ t.2.2 ∈ stateList.dedup) then
    .error .valueErr
  else
    match stateList.dedup.find? (fun s => s.is_initial) with
    | none => .error .valueErr
    | some i =>
      if 2 ≤ stateList.dedup.countP (fun s => s.is_initial) then
        .error .valueErr
      else if ¬ (∃ s ∈ stateList.dedup, s.is_final = true) then
        .error .valueErr
      else if ∃ t ∈ transList.dedup, ∃ u ∈ transList.dedup,
          t ≠ u ∧ t.1 = u.1 ∧ t.2.1 = u.2.1 then .error .valueErr
      else .ok ⟨stateList.dedup, transList.dedup, i⟩

/-- The initial state of the product - the value that line 201's
`FSMState((labelA, labelB), True, finalA and finalB)` intends to build
(the real constructor raises unconditionally, see `fsmStateNew`; the
faithful `intersection` accounts for that). -/
def interInitial (A : MWEAutomaton L S) (B : MWEAutomaton L2 S) :
    MWEState (L × L2) :=
  ⟨(A.initial.label, B.initial.label), true,
    A.initial.is_final && B.initial.is_final⟩

/-- The product state that the `FSMState` constructions at
automaton_MWE.py lines 213 and 235 intend to build (again net of the
unconditional constructor `TypeError`). -/
def prodState (a : MWEState L) (b : MWEState L2) : MWEState (L × L2) :=
  ⟨(a.label, b.label), a.is_initial && b.is_initial,
    a.is_final && b.is_final⟩

/-- The first loop of `intersection` (automaton_MWE.py lines 206-219):
iterate over the keys of `self.dict[self.initial_state]` — i.e. over
the transitions leaving `A`'s initial state, in order — skip the keys
on which `other.dict[other.initial_state]` raises `KeyError`, and
record `(key, new_state)` for the rest. -/
def interFirstSteps (A : MWEAutomaton L S) (B : MWEAutomaton L2 S) :
    List (S × MWEState (L × L2)) :=
  (A.transitions.filter (fun t => decide (t.1 = A.initial))).filterMap
    (fun t => (dictLookup B B.initial t.2.1).map
      (fun bt => (t.2.1, prodState t.2.2 bt)))

/-- The `while frontier` loop of `intersection` (automaton_MWE.py lines
224-242).  At loop entry `finished_states = {initial_state}` (line
221), and the only statement that could enlarge it (line 242) is
unreachable: the loop body first keys `self.dict` — keyed by
`FSMState`s — with the bare label `state.label[0]` (line 228), an
uncaught `KeyError`.  So a popped state equal to the initial product
state is skipped (line 226-227) and any other popped state crashes the
construction. -/
def interLoop (init : MWEState L) : List (MWEState L) → Except MWEErr Unit
  | [] => .ok ()
  | s :: rest => if s = init then interLoop init rest else .error .keyErr

/-- The product construction of `Automaton.intersection`
(automaton_MWE.py lines 190-247) with the unconditional
`FSMState`/`FSMTransition` constructor `TypeError`s stripped: the
first-steps loop, the BFS loop, the `has_final_state` test of lines
244-245 (`'No final state is reached...'`), then the `Automaton`
constructor on the accumulated state and transition sets.  In the
source this is unreachable - see `intersection`. -/
def intersectionBody (A : MWEAutomaton L S) (B : MWEAutomaton L2 S) :
    Except MWEErr (MWEAutomaton (L × L2) S) :=
  (interLoop (interInitial A B)
      ((interFirstSteps A B).map (fun p => p.2))).bind (fun _ =>
    if ((interInitial A B).is_final
        || (interFirstSteps A B).any (fun p => p.2.is_final)) = true then
      mkMWEAutomaton
        (interInitial A B :: (interFirstSteps A B).map (fun p => p.2))
        ((interFirstSteps A B).map (fun p => (interInitial A B, p.1, p.2)))
    else .error .emptyLanguage)

/-- The well-formedness invariants of the data model (spec §3) for an
already-constructed automaton: no duplicate states or transitions,
a unique initial state carrying the `is_initial` flag, unique labels,
transitions between member states, determinism. -/
structure WF (M : MWEAutomaton L S) : Prop where
  states_nodup : M.states.Nodup
  trans_nodup : M.transitions.Nodup
  initial_mem : M.initial ∈ M.states
  initial_flag : M.initial.is_initial = true
  initial_unique : ∀ s ∈ M.states, s.is_initial = true → s = M.initial
  label_unique : ∀ s ∈ M.states, ∀ s' ∈ M.states, s.label = s'.label → s = s'
  trans_mem : ∀ t ∈ M.transitions, t.1 ∈ M.states ∧ t.2.2 ∈ M.states
  det : ∀ t ∈ M.transitions, ∀ t' ∈ M.transitions,
    t.1 = t'.1 → t.2.1 = t'.2.1 → t = t'

/-- `Automaton.intersection` (automaton_MWE.py lines 190-247) as the
source actually behaves: its first statement, line 201, constructs
`FSMState((labelA, labelB), True, ...)`, and `FSMState.__init__`
raises `TypeError` on every call (line 11), so the whole product
construction behind it (`intersectionBody`) is dead code. -/
def intersection (A : MWEAutomaton L S) (B : MWEAutomaton L2 S) :
    Except MWEErr (MWEAutomaton (L × L2) S) :=
  (fsmStateNew (A.initial.label, B.initial.label) true
      (A.initial.is_final && B.initial.is_final)).bind
    (fun _ => intersectionBody A B)

theorem interLoop_ok_iff (init : MWEState L) (l : List (MWEState L)) :
    interLoop init l = .ok () ↔ ∀ s ∈ l, s = init := by
  induction l with
  | nil => simp [interLoop]
  | cons s rest ih =>
    by_cases h : s = init
    · simp [interLoop, h, ih]
    · simp [interLoop, h]

theorem dictLookup_mem {M : MWEAutomaton L S} {q : MWEState L} {c : S}
    {q' : MWEState L} (h : dictLookup M q c = some q') :
    (q, c, q') ∈ M.transitions := by
  unfold dictLookup at h
  rcases hf : M.transitions.find?
      (fun t => decide (t.1 = q ∧ t.2.1 = c)) with _ | t
  · rw [hf] at h; simp at h
  · rw [hf] at h
    simp only [Option.map_some'] at h
    have hmem := List.mem_of_find?_eq_some hf
    have hp := List.find?_some hf
    simp only [decide_eq_true_eq] at hp
    obtain ⟨h1, h2⟩ := hp
    have : t = (q, c, q') := by
      rcases t with ⟨tf, tc, tt⟩
      simp only at h1 h2
      simp only [Option.some.injEq] at h
      simp [h1, h2, ← h]
    rw [← this]; exact hmem

theorem dictLookup_isSome {M : MWEAutomaton L S} {q : MWEState L} {c : S}
    {q' : MWEState L} (h : (q, c, q') ∈ M.transitions) :
    ∃ q'', dictLookup M q c = some q'' := by
  unfold dictLookup
  have : ∃ t ∈ M.transitions, (fun t : MWETransition L S =>
      decide (t.1 = q ∧ t.2.1 = c)) t = true := ⟨(q, c, q'), h, by simp⟩
  rw [← List.find?_isSome] at this
  rcases hf : M.transitions.find?
      (fun t => decide (t.1 = q ∧ t.2.1 = c)) with _ | t
  · rw [hf] at this; simp at this
  · exact ⟨t.2.2, by rw [hf]; rfl⟩

theorem dictLookup_eq {M : MWEAutomaton L S} (hM : WF M)
    {q : MWEState L} {c : S} {q' : MWEState L}
    (h : (q, c, q') ∈ M.transitions) : dictLookup M q c = some q' := by
  obtain ⟨q'', h2⟩ := dictLookup_isSome h
  have hmem := dictLookup_mem h2
  have := hM.det _ h _ hmem rfl rfl
  simp only [Prod.mk.injEq] at this
  rw [h2, this.2.2]

theorem dedup_const {α : Type} [DecidableEq α] (a : α) :
    ∀ l : List α, (∀ x ∈ l, x = a) → (a :: l).dedup = [a] := by
  intro l
  induction l with
  | nil => intro _; simp
  | cons x rest ih =>
    intro h
    have hx : x = a := h x (by simp)
    subst hx
    have hmem : x ∈ x :: rest := by simp
    rw [List.dedup_cons_of_mem hmem]
    exact ih (fun y hy => h y (by simp [hy]))

theorem interFirstSteps_mem {A : MWEAutomaton L S} {B : MWEAutomaton L2 S}
    {p : S × MWEState (L × L2)} :
    p ∈ interFirstSteps A B ↔
      ∃ t ∈ A.transitions, t.1 = A.initial ∧
        ∃ bt, dictLookup B B.initial t.2.1 = some bt ∧
          p = (t.2.1, prodState t.2.2 bt) := by
  unfold interFirstSteps
  simp only [List.mem_filterMap, List.mem_filter, decide_eq_true_eq]
  constructor
  · rintro ⟨t, ⟨ht, hinit⟩, hf⟩
    rcases hb : dictLookup B B.initial t.2.1 with _ | bt
    · rw [hb] at hf; simp at hf
    · rw [hb] at hf
      simp only [Option.map_some', Option.some.injEq] at hf
      exact ⟨t, ht, hinit, bt, hb, hf.symm⟩
  · rintro ⟨t, ht, hinit, bt, hb, hp⟩
    exact ⟨t, ⟨ht, hinit⟩, by rw [hb]; simp [hp]⟩

/-- Inversion of a successful `intersectionBody` run: the BFS loop
forces every discovered product state to coincide with the initial
product state, the initial product state is final, and the returned
automaton consists of that single state together with the recorded
self-loops. -/
theorem intersectionBody_ok_inv {A : MWEAutomaton L S}
    {B : MWEAutomaton L2 S} {M : MWEAutomaton (L × L2) S}
    (hok : intersectionBody A B = .ok M) :
    (∀ p ∈ interFirstSteps A B, p.2 = interInitial A B)
    ∧ (interInitial A B).is_final = true
    ∧ M.states = [interInitial A B]
    ∧ M.initial = interInitial A B
    ∧ (∀ t, t ∈ M.transitions ↔
        ∃ p ∈ interFirstSteps A B, t = (interInitial A B, p.1, p.2)) := by
  unfold intersectionBody at hok
  set init := interInitial A B with hinit
  set fs := interFirstSteps A B with hfs
  rcases hloop : interLoop init (fs.map (fun p => p.2)) with e | u
  · rw [hloop] at hok; exact absurd hok (by simp [Except.bind])
  · rw [hloop] at hok
    simp only [Except.bind] at hok
    have hall : ∀ p ∈ fs, p.2 = init := by
      intro p hp
      have := (interLoop_ok_iff init (fs.map (fun p => p.2))).1 (by rw [hloop])
      exact this p.2 (List.mem_map_of_mem _ hp)
    by_cases hcond : (init.is_final || fs.any (fun p => p.2.is_final)) = true
    case neg => rw [if_neg hcond] at hok; exact absurd hok (by simp)
    case pos =>
      rw [if_pos hcond] at hok
      have hfin : init.is_final = true := by
        rcases Bool.or_eq_true_iff.1 hcond with h | h
        · exact h
        · obtain ⟨p, hp, hpf⟩ := List.any_eq_true.1 h
          rw [← hall p hp]; exact hpf
      -- now invert the constructor
      have hdedup : (init :: fs.map (fun p => p.2)).dedup = [init] :=
        dedup_const init _ (by
          intro x hx
          obtain ⟨p, hp, hpx⟩ := List.mem_map.1 hx
          rw [← hpx]; exact hall p hp)
      unfold mkMWEAutomaton at hok
      rw [hdedup] at hok
      have htr : ∀ t ∈ (fs.map (fun p => (init, p.1, p.2))).dedup,
          t.1 ∈ [init] ∧ t.2.2 ∈ [init] := by
        intro t ht
        obtain ⟨p, hp, hpt⟩ := List.mem_map.1 (List.mem_dedup.1 ht)
        rw [← hpt]
        exact ⟨by simp, by simp [hall p hp]⟩
      have hlen : ¬ (2 ≤ ([init] : List (MWEState (L × L2))).length) := by
        simp
      rw [if_neg hlen] at hok
      rw [if_neg (not_not.mpr htr)] at hok
      have hfind : ([init].find? (fun s => s.is_initial)) = some init := by
        have : init.is_initial = true := rfl
        simp [List.find?, this]
      rw [hfind] at hok
      have hcount : ([init].countP (fun s => s.is_initial)) = 1 := by
        have : init.is_initial = true := rfl
        simp [List.countP, List.countP.go, this]
      have hnodet : ¬ ∃ t ∈ (fs.map (fun p => (init, p.1, p.2))).dedup,
          ∃ u ∈ (fs.map (fun p => (init, p.1, p.2))).dedup,
          t ≠ u ∧ t.1 = u.1 ∧ t.2.1 = u.2.1 := by
        rintro ⟨t, ht, u, hu, hne, _, hsym⟩
        obtain ⟨p, hp, hpt⟩ := List.mem_map.1 (List.mem_dedup.1 ht)
        obtain ⟨p', hp', hpu⟩ := List.mem_map.1 (List.mem_dedup.1 hu)
        apply hne
        rw [← hpt, ← hpu, hall p hp, hall p' hp']
        rw [← hpt, ← hpu] at hsym
        simp only at hsym
        rw [hsym]
      have hex : ∃ s ∈ ([init] : List (MWEState (L × L2))),
          s.is_final = true := ⟨init, by simp, hfin⟩
      simp only [hcount, if_neg (by norm_num : ¬ ((2:ℕ) ≤ 1)),
        if_neg (not_not.mpr hex), if_neg hnodet] at hok
      have hM : M = ⟨[init], (fs.map (fun p => (init, p.1, p.2))).dedup,
          init⟩ := by
        cases hok; rfl
      refine ⟨hall, hfin, by rw [hM], by rw [hM], ?_⟩
      intro t
      rw [hM]
      simp only [List.mem_dedup, List.mem_map]
      constructor
      · rintro ⟨p, hp, hpt⟩; exact ⟨p, hp, hpt.symm⟩
      · rintro ⟨p, hp, hpt⟩; exact ⟨p, hp, hpt.symm⟩

theorem bool_eq_of_iff {a b : Bool} (h : a = true ↔ b = true) : a = b := by
  cases a <;> cases b <;> simp_all

/-- When the BFS survives, every first-step product state is the initial
one; this forces the underlying component destinations to be the two
component initial states. -/
theorem fs_target_initial {A : MWEAutomaton L S} {B : MWEAutomaton L2 S}
    (hA : WF A) (hB : WF B)
    (hall : ∀ p ∈ interFirstSteps A B, p.2 = interInitial A B)
    {t : MWETransition L S} (ht : t ∈ A.transitions)
    (hfrom : t.1 = A.initial) {bt : MWEState L2}
    (hbt : dictLookup B B.initial t.2.1 = some bt) :
    t.2.2 = A.initial ∧ bt = B.initial := by
  have hpmem : (t.2.1, prodState t.2.2 bt) ∈ interFirstSteps A B :=
    interFirstSteps_mem.2 ⟨t, ht, hfrom, bt, hbt, rfl⟩
  have heq := hall _ hpmem
  have hflag : (t.2.2.is_initial && bt.is_initial) = true := by
    have := congrArg MWEState.is_initial heq
    simpa [prodState, interInitial] using this
  obtain ⟨hf1, hf2⟩ := Bool.and_eq_true_iff.1 hflag
  constructor
  · exact hA.initial_unique _ (hA.trans_mem t ht).2 hf1
  · exact hB.initial_unique _ (hB.trans_mem _ (dictLookup_mem hbt)).2 hf2

/-- In the surviving case, a word is accepted by both operands exactly
when each of its symbols is one of the recorded common first-step keys
(both runs never leave the initial states). -/
theorem both_accept_iff {A : MWEAutomaton L S} {B : MWEAutomaton L2 S}
    (hA : WF A) (hB : WF B)
    (hall : ∀ p ∈ interFirstSteps A B, p.2 = interInitial A B)
    (hfin : (interInitial A B).is_final = true) :
    ∀ w, (accepts A w = true ∧ accepts B w = true)
      ↔ ∀ c ∈ w, ∃ p ∈ interFirstSteps A B, p.1 = c := by
  have hfinA : A.initial.is_final = true :=
    (Bool.and_eq_true_iff.1 (by simpa [interInitial] using hfin)).1
  have hfinB : B.initial.is_final = true :=
    (Bool.and_eq_true_iff.1 (by simpa [interInitial] using hfin)).2
  intro w
  induction w with
  | nil =>
    constructor
    · intro _ c hc; simp at hc
    · intro _
      exact ⟨by simp [accepts, processFrom, hfinA],
             by simp [accepts, processFrom, hfinB]⟩
  | cons c rest ih =>
    constructor
    · rintro ⟨haccA, haccB⟩
      rcases ha : dictLookup A A.initial c with _ | a'
      · rw [accepts, processFrom, ha] at haccA; simp at haccA
      · rcases hb : dictLookup B B.initial c with _ | b'
        · rw [accepts, processFrom, hb] at haccB; simp at haccB
        · have htm : ((A.initial, c, a') : MWETransition L S)
              ∈ A.transitions := dictLookup_mem ha
          obtain ⟨ha', hb'⟩ := fs_target_initial hA hB hall htm rfl hb
          simp only at ha' hb'
          have hpmem : (c, prodState a' b') ∈ interFirstSteps A B :=
            interFirstSteps_mem.2 ⟨(A.initial, c, a'), htm, rfl, b', hb, rfl⟩
          rw [accepts, processFrom, ha] at haccA
          rw [accepts, processFrom, hb] at haccB
          rw [ha'] at haccA
          rw [hb'] at haccB
          intro d hd
          rcases List.mem_cons.1 hd with hdc | hdr
          · exact ⟨(c, prodState a' b'), hpmem, by rw [hdc]⟩
          · exact (ih.1 ⟨haccA, haccB⟩) d hdr
    · intro hK
      obtain ⟨p, hp, hpc⟩ := hK c (by simp)
      obtain ⟨t, ht, hfrom, bt, hbt, hpeq⟩ := interFirstSteps_mem.1 hp
      have htc : t.2.1 = c := by rw [hpeq] at hpc; exact hpc
      obtain ⟨ha', hb'⟩ := fs_target_initial hA hB hall ht hfrom hbt
      have htprod : t = (A.initial, c, t.2.2) := by
        rcases t with ⟨tf, tc, tt⟩
        simp only at hfrom htc
        simp [hfrom, htc]
      have hlookA : dictLookup A A.initial c = some t.2.2 := by
        apply dictLookup_eq hA
        rw [← htprod]; exact ht
      have hlookB : dictLookup B B.initial c = some bt := by
        rw [← htc]; exact hbt
      have hrest := (ih.2 (fun d hd => hK d (by simp [hd])))
      refine ⟨?_, ?_⟩
      · rw [accepts, processFrom, hlookA, ha']
        exact hrest.1
      · rw [accepts, processFrom, hlookB, hb']
        exact hrest.2

theorem lookup_inter_some {M : MWEAutomaton (L × L2) S}
    {A : MWEAutomaton L S} {B : MWEAutomaton L2 S}
    (hall : ∀ p ∈ interFirstSteps A B, p.2 = interInitial A B)
    (htrans : ∀ t, t ∈ M.transitions ↔
      ∃ p ∈ interFirstSteps A B, t = (interInitial A B, p.1, p.2))
    {c : S} (hc : ∃ p ∈ interFirstSteps A B, p.1 = c) :
    dictLookup M (interInitial A B) c = some (interInitial A B) := by
  obtain ⟨p, hp, hpc⟩ := hc
  have hmem : ((interInitial A B, c, interInitial A B) :
      MWETransition (L × L2) S) ∈ M.transitions := by
    rw [htrans]
    exact ⟨p, hp, by rw [hpc, hall p hp]⟩
  obtain ⟨q'', hq⟩ := dictLookup_isSome hmem
  have hqmem := dictLookup_mem hq
  obtain ⟨p', hp', hpeq⟩ := (htrans _).1 hqmem
  have : q'' = p'.2 := by
    have := congrArg (fun t : MWETransition (L × L2) S => t.2.2) hpeq
    simpa using this
  rw [hq, this, hall p' hp']

theorem lookup_inter_none {M : MWEAutomaton (L × L2) S}
    {A : MWEAutomaton L S} {B : MWEAutomaton L2 S}
    (htrans : ∀ t, t ∈ M.transitions ↔
      ∃ p ∈ interFirstSteps A B, t = (interInitial A B, p.1, p.2))
    {q : MWEState (L × L2)} {c : S}
    (hc : ¬ ∃ p ∈ interFirstSteps A B, p.1 = c) :
    dictLookup M q c = none := by
  rcases hq : dictLookup M q c with _ | q''
  · rfl
  · exfalso
    obtain ⟨p', hp', hpeq⟩ := (htrans _).1 (dictLookup_mem hq)
    apply hc
    refine ⟨p', hp', ?_⟩
    have := congrArg (fun t : MWETransition (L × L2) S => t.2.1) hpeq
    simpa using this.symm

theorem accepts_inter {M : MWEAutomaton (L × L2) S}
    {A : MWEAutomaton L S} {B : MWEAutomaton L2 S}
    (hall : ∀ p ∈ interFirstSteps A B, p.2 = interInitial A B)
    (hfin : (interInitial A B).is_final = true)
    (hini : M.initial = interInitial A B)
    (htrans : ∀ t, t ∈ M.transitions ↔
      ∃ p ∈ interFirstSteps A B, t = (interInitial A B, p.1, p.2)) :
    ∀ w, accepts M w = true ↔
      ∀ c ∈ w, ∃ p ∈ interFirstSteps A B, p.1 = c := by
  intro w
  rw [accepts, hini]
  induction w with
  | nil =>
    simp [processFrom, hfin]
  | cons c rest ih =>
    by_cases hc : ∃ p ∈ interFirstSteps A B, p.1 = c
    · rw [processFrom, lookup_inter_some hall htrans hc]
      constructor
      · intro h d hd
        rcases List.mem_cons.1 hd with hdc | hdr
        · rw [hdc]; exact hc
        · exact ih.1 h d hdr
      · intro h
        exact ih.2 (fun d hd => h d (by simp [hd]))
    · rw [processFrom, lookup_inter_none htrans hc]
      simp only [Bool.false_eq_true, false_iff]
      intro h
      exact hc (h c (by simp))

/-- **C2 (code bug).** `intersection` raises `TypeError` on every
call: its first statement, line 201, constructs an `FSMState`, whose
constructor raises through the line-11 `hasattr` misuse; no run ever
succeeds, so the claimed successful products cannot be produced.  The
construction the guard hides (`intersectionBody`, the spec's intended
behaviour) does satisfy the claim wherever it can succeed: the product
accepts a word exactly when both well-formed operands accept it, and
every product state carries a pair label `(labelA, labelB)` of
component states, is final iff both components are final, and is
reachable from the product initial state. -/
theorem intersection_always_raises (A : MWEAutomaton L S)
    (B : MWEAutomaton L2 S) :
    intersection A B = .error .typeErr
    ∧ (∀ M, WF A → WF B → intersectionBody A B = .ok M →
        (∀ w, accepts M w = (accepts A w && accepts B w))
        ∧ (∀ s ∈ M.states, ∃ a ∈ A.states, ∃ b ∈ B.states,
            s.label = (a.label, b.label)
            ∧ s.is_final = (a.is_final && b.is_final)
            ∧ ∃ w, deltaStar M (some M.initial) w = some s)) := by
  refine ⟨rfl, ?_⟩
  intro M hA hB hok
  obtain ⟨hall, hfin, hst, hini, htrans⟩ := intersectionBody_ok_inv hok
  constructor
  · intro w
    apply bool_eq_of_iff
    rw [accepts_inter hall hfin hini htrans w, Bool.and_eq_true_iff]
    exact (both_accept_iff hA hB hall hfin w).symm
  · intro s hs
    rw [hst, List.mem_singleton] at hs
    refine ⟨A.initial, hA.initial_mem, B.initial, hB.initial_mem, ?_, ?_,
      ⟨[], ?_⟩⟩
    · rw [hs]; rfl
    · rw [hs]; rfl
    · rw [deltaStar_nil, hini, hs]

/-- **C8 (code bug).** The empty-language `ValueError` of line 245 and
any successful return are unreachable: every call of `intersection`
raises `TypeError` at line 201 (the `FSMState` constructor's line-11
`hasattr` misuse), never the claimed `EmptyLanguage`.  The construction
the guard hides (`intersectionBody`) behaves as the claim describes:
a successful run returns an automaton with a final state and implies a
common accepted word (so an empty intersection language can never be
returned as an automaton), and completing the BFS with no final state
reached yields precisely the empty-language error. -/
theorem intersection_unreachable_empty_language (A : MWEAutomaton L S)
    (B : MWEAutomaton L2 S) :
    intersection A B = .error .typeErr
    ∧ (∀ M, intersectionBody A B = .ok M →
      (∃ s ∈ M.states, s.is_final = true)
      ∧ ∃ w, accepts A w = true ∧ accepts B w = true)
    ∧ (interLoop (interInitial A B)
          ((interFirstSteps A B).map (fun p => p.2)) = .ok ()
        → ((interInitial A B).is_final
            || (interFirstSteps A B).any (fun p => p.2.is_final)) = false
        → intersectionBody A B = .error .emptyLanguage) := by
  refine ⟨rfl, ?_, ?_⟩
  · intro M hok
    obtain ⟨hall, hfin, hst, hini, htrans⟩ := intersectionBody_ok_inv hok
    have hfinA : A.initial.is_final = true :=
      (Bool.and_eq_true_iff.1 (by simpa [interInitial] using hfin)).1
    have hfinB : B.initial.is_final = true :=
      (Bool.and_eq_true_iff.1 (by simpa [interInitial] using hfin)).2
    refine ⟨⟨interInitial A B, by rw [hst]; simp, hfin⟩, ⟨[], ?_, ?_⟩⟩
    · simp [accepts, processFrom, hfinA]
    · simp [accepts, processFrom, hfinB]
  · intro hloop hfalse
    unfold intersectionBody
    rw [hloop]
    simp only [Except.bind]
    rw [if_neg (by rw [hfalse]; simp)]

/-! ## Part 2: the sage-style automata of `enhanced_automaton.py` /
`concatable_automaton.py`

These classes subclass `sage.combinat.finite_state_machine.Automaton`.
A machine is a transition list between labelled states plus initial and
final data; sage identifies states by label.  Acceptance is run
existence (sage processes nondeterministic automata by exploring all
branches), which for the deterministic machines of this repository
agrees with the unique run. -/

structure SageAutomaton (L S : Type) where
  states : List L
  initial : L
  finals : List L
  trans : List (L × S × L)
deriving DecidableEq

/-- One nondeterministic step: all destinations of transitions leaving
a current state on symbol `c`. -/
def stepSet (M : SageAutomaton L S) (cur : List L) (c : S) : List L :=
  (M.trans.filter (fun t => decide (t.1 ∈ cur ∧ t.2.1 = c))).map
    (fun t => t.2.2)

/-- All states reachable from `cur` by consuming `w`. -/
def reachSet (M : SageAutomaton L S) (cur : List L) (w : List S) : List L :=
  w.foldl (stepSet M) cur

/-- Sage-style acceptance: some run from the initial state over `w`
ends in a final state. -/
def saccepts (M : SageAutomaton L S) (w : List S) : Bool :=
  (reachSet M [M.initial] w).any (fun q => decide (q ∈ M.finals))

/-- A run of the machine viewed as a relation. -/
inductive SReach (M : SageAutomaton L S) : L → List S → L → Prop
  | nil (q : L) : SReach M q [] q
  | cons {q : L} {c : S} {q' : L} {w : List S} {q'' : L} :
      (q, c, q') ∈ M.trans → SReach M q' w q'' → SReach M q (c :: w) q''

/-- Determinism in the sense of the spec: no state with two outgoing
transitions sharing a symbol (toward different destinations). -/
def SDet (M : SageAutomaton L S) : Prop :=
  ∀ t ∈ M.trans, ∀ u ∈ M.trans, t.1 = u.1 → t.2.1 = u.2.1 → t.2.2 = u.2.2

instance (M : SageAutomaton L S) [DecidableEq L] [DecidableEq S] :
    Decidable (SDet M) := by
  unfold SDet; infer_instance

theorem mem_reachSet_iff (M : SageAutomaton L S) (w : List S) :
    ∀ (cur : List L) (q'' : L),
      q'' ∈ reachSet M cur w ↔ ∃ q ∈ cur, SReach M q w q'' := by
  induction w with
  | nil =>
    intro cur q''
    constructor
    · intro h; exact ⟨q'', h, SReach.nil q''⟩
    · rintro ⟨q, hq, hr⟩; cases hr; exact hq
  | cons c rest ih =>
    intro cur q''
    show q'' ∈ reachSet M (stepSet M cur c) rest ↔ _
    rw [ih]
    constructor
    · rintro ⟨q', hq', hr⟩
      unfold stepSet at hq'
      obtain ⟨t, ht, htq⟩ := List.mem_map.1 hq'
      have hf := List.mem_filter.1 ht
      have hpred := of_decide_eq_true hf.2
      refine ⟨t.1, hpred.1, ?_⟩
      have : (t.1, c, q') ∈ M.trans := by
        rcases t with ⟨a, b, d⟩
        simp only at htq
        obtain ⟨_, h2⟩ := hpred
        simp only at h2
        rw [← h2, ← htq] at *
        exact hf.1
      exact SReach.cons this hr
    · rintro ⟨q, hq, hr⟩
      rcases hr with _ | ⟨hstep, hrest⟩
      refine ⟨_, ?_, hrest⟩
      unfold stepSet
      apply List.mem_map.2
      refine ⟨_, List.mem_filter.2 ⟨hstep, ?_⟩, rfl⟩
      simp [hq]

theorem saccepts_iff (M : SageAutomaton L S) (w : List S) :
    saccepts M w = true ↔
      ∃ f, SReach M M.initial w f ∧ f ∈ M.finals := by
  unfold saccepts
  rw [List.any_eq_true]
  constructor
  · rintro ⟨f, hf, hfin⟩
    obtain ⟨q, hq, hr⟩ := (mem_reachSet_iff M w _ f).1 hf
    rw [List.mem_singleton] at hq
    subst hq
    exact ⟨f, hr, of_decide_eq_true hfin⟩
  · rintro ⟨f, hr, hfin⟩
    exact ⟨f, (mem_reachSet_iff M w _ f).2 ⟨M.initial, by simp, hr⟩,
      by simpa using hfin⟩

/-- `unambiguous_concatenation` (enhanced_automaton.py lines 19-99,
identically concatable_automaton.py lines 20-76): relabel `A`'s states
to the left summand keeping their finality, `B`'s to the right summand
clearing the initial flag; copy `A`'s transitions, copy `B`'s
transitions except the ones leaving `B`'s initial state, and graft each
transition leaving `B`'s initial state onto every final state of `A`.
The source tags labels `(0, l)` / `(1, l)`, rendered here as the two
summands of `Sum`.  The edge case of lines 43-49 (both operands are
single-state transition-free machines) returns a single-state machine
(the source gives it the fresh label `(0, 'origin')`; we keep the
relabelled `A` initial state, which has the same flags and the same
observable behaviour). -/
def unambiguous_concatenation (A : SageAutomaton L S) (B : SageAutomaton L2 S) :
    SageAutomaton (Sum L L2) S :=
  if A.states.length = 1 ∧ A.trans = [] ∧ B.states.length = 1
      ∧ B.trans = [] then
    ⟨[Sum.inl A.initial], Sum.inl A.initial, [Sum.inl A.initial], []⟩
  else
    ⟨A.states.map Sum.inl ++ B.states.map Sum.inr,
     Sum.inl A.initial,
     A.finals.map Sum.inl ++ B.finals.map Sum.inr,
     A.trans.map (fun t => (Sum.inl t.1, t.2.1, Sum.inl t.2.2))
       ++ (B.trans.filter (fun t => ! decide (t.1 = B.initial))).map
            (fun t => (Sum.inr t.1, t.2.1, Sum.inr t.2.2))
       ++ A.finals.flatMap (fun f =>
            (B.trans.filter (fun t => decide (t.1 = B.initial))).map
              (fun t => (Sum.inl f, t.2.1, Sum.inr t.2.2)))⟩

theorem stepSet_nil_cur (M : SageAutomaton L S) (c : S) :
    stepSet M [] c = [] := by
  simp [stepSet]

theorem reachSet_nil_cur (M : SageAutomaton L S) (w : List S) :
    reachSet M [] w = [] := by
  induction w with
  | nil => rfl
  | cons c rest ih =>
    show reachSet M (stepSet M [] c) rest = []
    rw [stepSet_nil_cur]; exact ih

/-! Concrete operands exhibiting the failure of the
`unambiguous_concatenation` contract.

`cexA1` is the one-state machine for the language `{ε}`.  `cexB1` has
two states `0 → 1 → 0` (all final), so its accepting run on `[3,4,3]`
revisits its initial state and leaves it again - which the
construction cannot replay, because transitions leaving `B`'s initial
state are dropped and re-grafted only onto final states of `A`.

`cexA2`/`cexB2` satisfy the documented preconditions as well, yet the
grafted transition collides with `A`'s own transition `0 -3-> 1`
(which leaves a final state but ends no accepted word, so precondition
(2) about last letters of `L(A)` does not exclude it), producing a
nondeterministic result. -/

def cexA1 : SageAutomaton ℕ ℕ := ⟨[0], 0, [0], []⟩

def cexB1 : SageAutomaton ℕ ℕ := ⟨[0, 1], 0, [0, 1], [(0, 3, 1), (1, 4, 0)]⟩

def cexA2 : SageAutomaton ℕ ℕ := ⟨[0, 1], 0, [0], [(0, 3, 1)]⟩

def cexB2 : SageAutomaton ℕ ℕ := ⟨[0, 1], 0, [0, 1], [(0, 3, 1)]⟩

theorem cexA1_lang : ∀ w, saccepts cexA1 w = true → w = [] := by
  intro w
  cases w with
  | nil => intro _; rfl
  | cons c rest =>
    intro h
    exfalso
    have h0 : stepSet cexA1 [0] c = [] := rfl
    have : saccepts cexA1 (c :: rest)
        = (reachSet cexA1 (stepSet cexA1 [0] c) rest).any
            (fun q => decide (q ∈ cexA1.finals)) := rfl
    rw [this, h0, reachSet_nil_cur] at h
    simp at h

theorem cexA2_lang : ∀ w, saccepts cexA2 w = true → w = [] := by
  intro w
  cases w with
  | nil => intro _; rfl
  | cons c rest =>
    intro h
    exfalso
    have hstep1 : ∀ d, stepSet cexA2 [1] d = [] := by
      intro d
      simp [stepSet, cexA2]
    have hrw : saccepts cexA2 (c :: rest)
        = (reachSet cexA2 (stepSet cexA2 [0] c) rest).any
            (fun q => decide (q ∈ cexA2.finals)) := rfl
    by_cases hc : c = 3
    · subst hc
      have h3 : stepSet cexA2 [0] 3 = [1] := by decide
      rw [hrw, h3] at h
      cases rest with
      | nil => simp [reachSet, cexA2] at h
      | cons d rest' =>
        have : reachSet cexA2 [1] (d :: rest')
            = reachSet cexA2 (stepSet cexA2 [1] d) rest' := rfl
        rw [this, hstep1, reachSet_nil_cur] at h
        simp at h
    · have h0 : stepSet cexA2 [0] c = [] := by
        simp [stepSet, cexA2, eq_comm, hc]
      rw [hrw, h0, reachSet_nil_cur] at h
      simp at h

/-- **C3 (code bug).** Both halves of the concatenation contract fail
on operands satisfying the documented preconditions (no epsilon
transitions - inherent in this embedding; no word of `L(A)` ends with
a letter beginning a word of `L(B)`; `ε ∈ L(B)`).  First conjunct:
`ε ∈ L(cexA1)`, `[3,4,3] ∈ L(cexB1)`, yet the concatenation rejects
`[] ++ [3,4,3]`.  Second conjunct: `cexA2`, `cexB2` are deterministic
and satisfy the preconditions, yet the concatenation is
nondeterministic. -/
theorem uconcat_contract_fails :
    (saccepts cexA1 [] = true
     ∧ saccepts cexB1 [3, 4, 3] = true
     ∧ saccepts cexB1 [] = true
     ∧ (∀ w c, saccepts cexA1 (w ++ [c]) = false)
     ∧ saccepts (unambiguous_concatenation cexA1 cexB1) ([] ++ [3, 4, 3]) = false)
    ∧ (saccepts cexB2 [] = true
     ∧ (∀ w c, saccepts cexA2 (w ++ [c]) = false)
     ∧ decide (SDet cexA2) = true ∧ decide (SDet cexB2) = true
     ∧ decide (SDet (unambiguous_concatenation cexA2 cexB2)) = false) := by
  refine ⟨⟨by decide, by decide, by decide, ?_, by decide⟩,
    by decide, ?_, by decide, by decide, by decide⟩
  · intro w c
    cases h : saccepts cexA1 (w ++ [c]) with
    | false => rfl
    | true =>
      have := cexA1_lang _ h
      simp at this
  · intro w c
    cases h : saccepts cexA2 (w ++ [c]) with
    | false => rfl
    | true =>
      have := cexA2_lang _ h
      simp at this

/-! ### Operand effects of the composition operators (C5)

sage machines carry an `input_alphabet` attribute.
`unambiguous_concatenation` (enhanced_automaton.py 19-99) reads its
operands through `iter_states`/`relabeled` (which copy) and assigns no
attribute of `self` or `other`; sage's `intersection` (called by
`enhanced_intersection`, lines 101-108) likewise allocates a new
machine.  `_interspersal` (enhanced_automaton.py lines 110-166;
concatable_automaton.py lines 83-117) however starts with

    self.input_alphabet = set(self.input_alphabet).union(set(other.input_alphabet))
    other.input_alphabet = set(self.input_alphabet).union(set(other.input_alphabet))

which overwrites the `input_alphabet` of *both operands* (the second
line reads the already-updated `self.input_alphabet`).  The remaining
statements of `_interspersal` act on `completion()` results, on the
fresh parity machine and on the fresh product, never on the operands.
We embed each operator's effect on its operands as a function returning
the post-call operand values; a Python set is represented by a
duplicate-free list, compared observationally by membership. -/

structure AlphAutomaton (L S : Type) where
  auto : SageAutomaton L S
  input_alphabet : List S
deriving DecidableEq

/-- `set(xs).union(set(ys))` on list-represented sets. -/
def pyUnion (xs ys : List S) : List S :=
  xs.dedup ++ ys.dedup.filter (fun y => decide (y ∉ xs.dedup))

/-- `unambiguous_concatenation` builds the concatenated machine
(`unambiguous_concatenation`) and leaves both operands as they were. -/
def uconcatWithOperands (A : AlphAutomaton L S) (B : AlphAutomaton L2 S) :
    SageAutomaton (Sum L L2) S × AlphAutomaton L S × AlphAutomaton L2 S :=
  (unambiguous_concatenation A.auto B.auto, A, B)

/-- sage's `intersection` allocates a new machine and leaves both
operands as they were. -/
def intersectionOperands (A : AlphAutomaton L S) (B : AlphAutomaton L2 S) :
    AlphAutomaton L S × AlphAutomaton L2 S :=
  (A, B)

/-- The operand effect of `_interspersal` (enhanced_automaton.py lines
128-129): both `input_alphabet` attributes are overwritten, the first
with the union of the two, the second with the union of the updated
first and the second. -/
def interspersalOperands (A : AlphAutomaton L S) (B : AlphAutomaton L2 S) :
    AlphAutomaton L S × AlphAutomaton L2 S :=
  (⟨A.auto, pyUnion A.input_alphabet B.input_alphabet⟩,
   ⟨B.auto, pyUnion (pyUnion A.input_alphabet B.input_alphabet)
      B.input_alphabet⟩)

theorem mem_pyUnion (xs ys : List S) (x : S) :
    x ∈ pyUnion xs ys ↔ x ∈ xs ∨ x ∈ ys := by
  unfold pyUnion
  simp only [List.mem_append, List.mem_filter, List.mem_dedup,
    decide_eq_true_eq]
  by_cases hx : x ∈ xs <;> simp [hx]

def cexAlphA : AlphAutomaton ℕ ℕ := ⟨cexA1, [0]⟩

def cexAlphB : AlphAutomaton ℕ ℕ := ⟨cexB1, [1]⟩

/-- **C5 (counterexample).** `_interspersal` mutates its operands: with
input alphabets `{0}` and `{1}`, after the call the first operand's
input alphabet contains `1`, which it did not before, so the operand is
not observationally unchanged. -/
theorem interspersal_mutates_operands :
    (interspersalOperands cexAlphA cexAlphB).1.input_alphabet = [0, 1]
    ∧ cexAlphA.input_alphabet = [0]
    ∧ ((interspersalOperands cexAlphA cexAlphB).1.input_alphabet).contains 1
        = true
    ∧ (cexAlphA.input_alphabet).contains 1 = false := by
  refine ⟨by decide, by decide, by decide, by decide⟩

/-- **C5 (amended).** `unambiguous_concatenation` and `intersection`
leave both operands unchanged; `_interspersal` leaves the operands'
states, transitions and flags (their `auto` component) unchanged but
overwrites both operands' `input_alphabet` with the union of the two
original input alphabets. -/
theorem operator_operand_effects (A : AlphAutomaton L S)
    (B : AlphAutomaton L2 S) :
    (uconcatWithOperands A B).2 = (A, B)
    ∧ intersectionOperands A B = (A, B)
    ∧ (interspersalOperands A B).1.auto = A.auto
    ∧ (interspersalOperands A B).2.auto = B.auto
    ∧ (∀ x, x ∈ (interspersalOperands A B).1.input_alphabet
        ↔ (x ∈ A.input_alphabet ∨ x ∈ B.input_alphabet))
    ∧ (∀ x, x ∈ (interspersalOperands A B).2.input_alphabet
        ↔ (x ∈ A.input_alphabet ∨ x ∈ B.input_alphabet)) := by
  refine ⟨rfl, rfl, rfl, rfl, ?_, ?_⟩
  · intro x
    exact mem_pyUnion _ _ _
  · intro x
    show x ∈ pyUnion (pyUnion A.input_alphabet B.input_alphabet)
        B.input_alphabet ↔ _
    rw [mem_pyUnion, mem_pyUnion]
    constructor
    · rintro ((h | h) | h)
      · exact Or.inl h
      · exact Or.inr h
      · exact Or.inr h
    · rintro (h | h)
      · exact Or.inl (Or.inl h)
      · exact Or.inr h

/-! ## Part 3: the machine generators of `rips_fsm_generator.py`

Letters are Python one-character strings, embedded as `Char`.  A Python
set of letters is represented by a duplicate-free list; `c_map` is the
commutation dictionary as a function, `o_map` the total order as a
function, and `tuple(sorted(S, key=o_map))` is `pySortedTuple`. -/

/-- `tuple(sorted(S, key = lambda x: o_map[x]))` for a set `S`
represented as a list (possibly with duplicates, which the set
collapses). -/
def pySortedTuple (om : Char → ℕ) (xs : List Char) : List Char :=
  List.insertionSort (fun x y => om x ≤ om y) xs.dedup

/-- `self.lesser_star[letter]` (rips_fsm_generator.py lines 44-47): the
letters that commute with and strictly precede the given letter. -/
def lesserStar (cm : Char → List Char) (om : Char → ℕ) (ℓ : Char) :
    List Char :=
  (cm ℓ).filter (fun x => decide (om x < om ℓ))

/-- The states a sage machine built from a transition list receives:
the labels occurring as an endpoint of some transition. -/
def transStates {Λ : Type} [DecidableEq Λ] (ts : List (Λ × Char × Λ)) :
    List Λ :=
  (ts.flatMap (fun t => [t.1, t.2.2])).dedup

/-- The result of a breadth-first generator run under a fuel bound:
the processed `States` list, the accumulated `TransitionList`, and the
unprocessed remainder of the frontier (empty iff the `while` loop
terminated within the fuel). -/
structure BFSOut (Λ : Type) where
  statesAcc : List Λ
  transAcc : List (Λ × Char × Λ)
  leftover : List Λ
deriving DecidableEq, Repr

/-- The label update of `__shortlex_machine` (rips_fsm_generator.py
line 176): `SourceSet ∩ c_map[ℓ] ∪ (lesser_star[ℓ] ∩ restricted) ∪ {ℓ}`
sorted into a tuple (line 177). -/
def shortlexStep (cm : Char → List Char) (om : Char → ℕ)
    (ra : List Char) (s : List Char) (ℓ : Char) : List Char :=
  pySortedTuple om ((s.filter (fun x => decide (x ∈ cm ℓ)))
    ++ (lesserStar cm om ℓ).filter (fun x => decide (x ∈ ra)) ++ [ℓ])

/-- The `while Frontier` loop of `__shortlex_machine`
(rips_fsm_generator.py lines 164-183): pop the head, skip it when an
equally-labelled state was already processed, otherwise record it and
emit one transition per letter of the restricted alphabet not in the
label.  Python guarantees no termination bound, so the recursion is
fuelled; `leftover` is what remains when fuel runs out. -/
def shortlexLoop (cm : Char → List Char) (om : Char → ℕ) (ra : List Char) :
    ℕ → List (List Char) → List (List Char) →
    List (List Char × Char × List Char) → BFSOut (List Char)
  | 0, frontier, states, tacc => ⟨states, tacc, frontier⟩
  | _ + 1, [], states, tacc => ⟨states, tacc, []⟩
  | fuel + 1, s :: rest, states, tacc =>
    if s ∈ states then shortlexLoop cm om ra fuel rest states tacc
    else
      shortlexLoop cm om ra fuel
        (rest ++ ((ra.filter (fun ℓ => decide (ℓ ∉ s))).map
          (fun ℓ => shortlexStep cm om ra s ℓ)))
        (states ++ [s])
        (tacc ++ ((ra.filter (fun ℓ => decide (ℓ ∉ s))).map
          (fun ℓ => (s, ℓ, shortlexStep cm om ra s ℓ))))

/-- The initial-frontier loop of `__shortlex_machine`
(rips_fsm_generator.py lines 154-161): one transition out of the empty
start label per letter of the restricted alphabet, to the label
`(lesser_star[ℓ] ∩ restricted) ∪ {ℓ}` (line 157), followed by the BFS
loop seeded with the targets, `States = [StartState]`. -/
def shortlexBuild (cm : Char → List Char) (om : Char → ℕ)
    (ra : List Char) (fuel : ℕ) : BFSOut (List Char) :=
  shortlexLoop cm om ra fuel
    (ra.map (fun ℓ => pySortedTuple om
      ((lesserStar cm om ℓ).filter (fun x => decide (x ∈ ra)) ++ [ℓ])))
    [[]]
    (ra.map (fun ℓ => (([] : List Char), ℓ, pySortedTuple om
      ((lesserStar cm om ℓ).filter (fun x => decide (x ∈ ra)) ++ [ℓ]))))

/-- `__shortlex_machine` (rips_fsm_generator.py lines 130-186): the
empty restricted alphabet returns the single-state machine with label
`'origin'` accepting only the empty word (lines 143-146); otherwise
the machine assembled from the generated transition list, every
created state final (`is_final = True` at lines 148, 158, 179) and the
empty tuple initial. -/
def shortlexMachine (cm : Char → List Char) (om : Char → ℕ)
    (ra : List Char) (fuel : ℕ) : SageAutomaton (List Char) Char :=
  if ra = [] then
    ⟨["origin".toList], "origin".toList, ["origin".toList], []⟩
  else
    ⟨transStates (shortlexBuild cm om ra fuel).transAcc, [],
     transStates (shortlexBuild cm om ra fuel).transAcc,
     (shortlexBuild cm om ra fuel).transAcc⟩

/-! `__geodesic_machine` (rips_fsm_generator.py lines 188-244) labels
the targets of the initial transitions with `NextName = (nextletter)`
(line 215) - the parenthesised bare letter, a Python *string*, while
every label built by the BFS proper is a *tuple* (line 235).  A string
label `'x'` and a tuple label `('x',)` are distinct Python values, so
the machine carries both.  `PyLabel` keeps the two shapes apart;
`set(label)` iterates either one into its letters. -/

inductive PyLabel where
  | str (s : List Char)
  | tup (l : List Char)
deriving DecidableEq, Repr

def pyLabelSet : PyLabel → List Char
  | .str s => s
  | .tup l => l

/-- The label update of `__geodesic_machine` (line 234):
`SourceSet ∩ c_map[ℓ] ∪ {ℓ}`, sorted into a tuple (line 235). -/
def geodesicStep (cm : Char → List Char) (om : Char → ℕ)
    (src : List Char) (ℓ : Char) : List Char :=
  pySortedTuple om ((src.filter (fun x => decide (x ∈ cm ℓ))) ++ [ℓ])

/-- The `while Frontier` loop of `__geodesic_machine`
(rips_fsm_generator.py lines 222-241). -/
def geodesicLoop (cm : Char → List Char) (om : Char → ℕ) (ra : List Char) :
    ℕ → List PyLabel → List PyLabel →
    List (PyLabel × Char × PyLabel) → BFSOut PyLabel
  | 0, frontier, states, tacc => ⟨states, tacc, frontier⟩
  | _ + 1, [], states, tacc => ⟨states, tacc, []⟩
  | fuel + 1, s :: rest, states, tacc =>
    if s ∈ states then geodesicLoop cm om ra fuel rest states tacc
    else
      geodesicLoop cm om ra fuel
        (rest ++ ((ra.filter (fun ℓ => decide (ℓ ∉ pyLabelSet s))).map
          (fun ℓ => PyLabel.tup (geodesicStep cm om (pyLabelSet s) ℓ))))
        (states ++ [s])
        (tacc ++ ((ra.filter (fun ℓ => decide (ℓ ∉ pyLabelSet s))).map
          (fun ℓ => (s, ℓ, PyLabel.tup (geodesicStep cm om (pyLabelSet s) ℓ)))))

/-- The initial-frontier loop of `__geodesic_machine` (lines 212-219):
one transition per letter, to the *string* label `(nextletter)` of
line 215, followed by the BFS loop. -/
def geodesicBuild (cm : Char → List Char) (om : Char → ℕ)
    (ra : List Char) (fuel : ℕ) : BFSOut PyLabel :=
  geodesicLoop cm om ra fuel
    (ra.map (fun ℓ => PyLabel.str [ℓ]))
    [PyLabel.tup []]
    (ra.map (fun ℓ => (PyLabel.tup [], ℓ, PyLabel.str [ℓ])))

/-- `__geodesic_machine` (rips_fsm_generator.py lines 188-244),
assembled like `shortlexMachine`. -/
def geodesicMachine (cm : Char → List Char) (om : Char → ℕ)
    (ra : List Char) (fuel : ℕ) : SageAutomaton PyLabel Char :=
  if ra = [] then
    ⟨[.str "origin".toList], .str "origin".toList,
     [.str "origin".toList], []⟩
  else
    ⟨transStates (geodesicBuild cm om ra fuel).transAcc, .tup [],
     transStates (geodesicBuild cm om ra fuel).transAcc,
     (geodesicBuild cm om ra fuel).transAcc⟩

/-! Constructor validation (C7). -/

inductive GenErr where
  | rayLength
  | rayCommutes
  | reservedChar
  | orderNotInjective
  | notSymmetric
  | notSubset
deriving DecidableEq, Repr

/-- `Rips_FSM_Generator.__init__` (rips_fsm_generator.py lines 14-50):
the ray must have two letters (line 25) which do not commute (line
27); the reserved characters must not occur in the alphabet (lines
35-41).  The commutation dictionary's symmetry and the order's
injectivity are *not* checked (the docstring at line 20 says so). -/
def ripsInit (cm : Char → List Char) (omap : List (Char × ℕ))
    (ray : List Char) : Except GenErr Unit :=
  match ray with
  | [r0, r1] =>
    if r1 ∈ cm r0 then .error .rayCommutes
    else if '-' ∈ omap.map (fun p => p.1) then .error .reservedChar
    else if ',' ∈ omap.map (fun p => p.1) then .error .reservedChar
    else if '_' ∈ omap.map (fun p => p.1) then .error .reservedChar
    else .ok ()
  | _ => .error .rayLength

/-- `DivergenceFSMGenerator.__init__` (divergence_fsm_generator.py
lines 11-75): ray length (line 32) and non-commutation (line 34), then
injectivity of the order values (line 38,
`len(order_dict.values()) != len(set(order_dict.values()))`), then
symmetry of the commutation dictionary over the alphabet (lines
46-50), then the reserved characters (lines 54-60). -/
def divInit (cm : Char → List Char) (omap : List (Char × ℕ))
    (ray : List Char) : Except GenErr Unit :=
  match ray with
  | [r0, r1] =>
    if r1 ∈ cm r0 then .error .rayCommutes
    else if ¬ (omap.map (fun p => p.2)).Nodup then .error .orderNotInjective
    else if ¬ (∀ a ∈ omap.map (fun p : Char × ℕ => p.1),
        ∀ b ∈ cm a, a ∈ cm b) then
      .error .notSymmetric
    else if '-' ∈ omap.map (fun p => p.1) then .error .reservedChar
    else if ',' ∈ omap.map (fun p => p.1) then .error .reservedChar
    else .ok ()
  | _ => .error .rayLength

/-- The subset guard of the machine generators (rips_fsm_generator.py
lines 141-142 and 199-200): `restricted_alphabet` not a subset of the
generator's alphabet raises before any BFS runs. -/
def shortlexMachineChecked (alphabet : List Char) (cm : Char → List Char)
    (om : Char → ℕ) (ra : List Char) (fuel : ℕ) :
    Except GenErr (SageAutomaton (List Char) Char) :=
  if ¬ (∀ x ∈ ra, x ∈ alphabet) then .error .notSubset
  else .ok (shortlexMachine cm om ra fuel)

/-- The subset guard of `__geodesic_machine` (lines 199-200). -/
def geodesicMachineChecked (alphabet : List Char) (cm : Char → List Char)
    (om : Char → ℕ) (ra : List Char) (fuel : ℕ) :
    Except GenErr (SageAutomaton PyLabel Char) :=
  if ¬ (∀ x ∈ ra, x ∈ alphabet) then .error .notSubset
  else .ok (geodesicMachine cm om ra fuel)

/-! The five-letter example (`VirtualSurfaceData` of defining_data.py,
used by `BasicTestSuite.test_rips_fsms`): pentagon commutation
`a-b-c-d-e-a`, order `a<b<c<d<e`. -/

def cmap5 : Char → List Char := fun c =>
  if c = 'a' then ['b', 'e']
  else if c = 'b' then ['a', 'c']
  else if c = 'c' then ['b', 'd']
  else if c = 'd' then ['e', 'c']
  else if c = 'e' then ['a', 'd']
  else []

def omap5 : Char → ℕ := fun c =>
  if c = 'a' then 0
  else if c = 'b' then 1
  else if c = 'c' then 2
  else if c = 'd' then 3
  else if c = 'e' then 4
  else 5

def alpha5 : List Char := ['a', 'b', 'c', 'd', 'e']

theorem mem_pySortedTuple (om : Char → ℕ) (xs : List Char) (x : Char) :
    x ∈ pySortedTuple om xs ↔ x ∈ xs := by
  unfold pySortedTuple
  rw [(List.perm_insertionSort _ _).mem_iff, List.mem_dedup]

theorem mem_shortlexStep (cm : Char → List Char) (om : Char → ℕ)
    (ra : List Char) (s : List Char) (ℓ : Char) (x : Char) :
    x ∈ shortlexStep cm om ra s ℓ ↔
      ((x ∈ s ∧ x ∈ cm ℓ) ∨ (x ∈ lesserStar cm om ℓ ∧ x ∈ ra) ∨ x = ℓ) := by
  unfold shortlexStep
  rw [mem_pySortedTuple]
  simp [List.mem_filter]

theorem mem_transStates {Λ : Type} [DecidableEq Λ]
    (ts : List (Λ × Char × Λ)) (l : Λ) :
    l ∈ transStates ts ↔ ∃ t ∈ ts, t.1 = l ∨ t.2.2 = l := by
  unfold transStates
  rw [List.mem_dedup]
  simp only [List.mem_flatMap, List.mem_cons, List.mem_singleton]
  constructor
  · rintro ⟨t, ht, h | h | h⟩
    · exact ⟨t, ht, Or.inl h.symm⟩
    · exact ⟨t, ht, Or.inr h.symm⟩
    · exact absurd h (by simp)
  · rintro ⟨t, ht, h | h⟩
    · exact ⟨t, ht, Or.inl h.symm⟩
    · exact ⟨t, ht, Or.inr (Or.inl h.symm)⟩

theorem shortlexLoop_trans_mono (cm : Char → List Char) (om : Char → ℕ)
    (ra : List Char) :
    ∀ (fuel : ℕ) (frontier states : List (List Char))
      (tacc : List (List Char × Char × List Char)) (t : _),
      t ∈ tacc → t ∈ (shortlexLoop cm om ra fuel frontier states tacc).transAcc := by
  intro fuel
  induction fuel with
  | zero => intro frontier states tacc t ht; exact ht
  | succ n ih =>
    intro frontier states tacc t ht
    cases frontier with
    | nil => exact ht
    | cons s rest =>
      simp only [shortlexLoop]
      split
      · exact ih _ _ _ _ ht
      · exact ih _ _ _ _ (List.mem_append_left _ ht)

theorem shortlexLoop_trans_inv (cm : Char → List Char) (om : Char → ℕ)
    (ra : List Char) (P : List Char × Char × List Char → Prop)
    (hP : ∀ s ℓ, ℓ ∈ ra → ℓ ∉ s → P (s, ℓ, shortlexStep cm om ra s ℓ)) :
    ∀ (fuel : ℕ) (frontier states : List (List Char))
      (tacc : List (List Char × Char × List Char)),
      (∀ t ∈ tacc, P t) →
      ∀ t ∈ (shortlexLoop cm om ra fuel frontier states tacc).transAcc, P t := by
  intro fuel
  induction fuel with
  | zero => intro frontier states tacc hacc t ht; exact hacc t ht
  | succ n ih =>
    intro frontier states tacc hacc t ht
    cases frontier with
    | nil => exact hacc t ht
    | cons s rest =>
      revert ht
      simp only [shortlexLoop]
      split
      · intro ht; exact ih _ _ _ hacc t ht
      · intro ht
        refine ih _ _ _ ?_ t ht
        intro u hu
        rcases List.mem_append.1 hu with h | h
        · exact hacc u h
        · obtain ⟨ℓ, hℓ, hu'⟩ := List.mem_map.1 h
          have hf := List.mem_filter.1 hℓ
          rw [← hu']
          exact hP s ℓ hf.1 (of_decide_eq_true hf.2)

theorem shortlexLoop_states_inv (cm : Char → List Char) (om : Char → ℕ)
    (ra : List Char) :
    ∀ (fuel : ℕ) (frontier states : List (List Char))
      (tacc : List (List Char × Char × List Char)),
      (∀ s ∈ states, ∀ ℓ ∈ ra, ℓ ∉ s →
        (s, ℓ, shortlexStep cm om ra s ℓ) ∈ tacc) →
      ∀ s ∈ (shortlexLoop cm om ra fuel frontier states tacc).statesAcc,
        ∀ ℓ ∈ ra, ℓ ∉ s →
        (s, ℓ, shortlexStep cm om ra s ℓ)
          ∈ (shortlexLoop cm om ra fuel frontier states tacc).transAcc := by
  intro fuel
  induction fuel with
  | zero => intro frontier states tacc hacc s hs ℓ hℓ hns; exact hacc s hs ℓ hℓ hns
  | succ n ih =>
    intro frontier states tacc hacc s hs ℓ hℓ hns
    revert hs
    cases frontier with
    | nil => intro hs; exact hacc s hs ℓ hℓ hns
    | cons f rest =>
      simp only [shortlexLoop]
      split
      · intro hs; exact ih _ _ _ hacc s hs ℓ hℓ hns
      · intro hs
        refine ih _ _ _ ?_ s hs ℓ hℓ hns
        intro s' hs' ℓ' hℓ' hns'
        rcases List.mem_append.1 hs' with h | h
        · exact List.mem_append_left _ (hacc s' h ℓ' hℓ' hns')
        · rw [List.mem_singleton] at h
          subst h
          apply List.mem_append_right
          apply List.mem_map.2
          refine ⟨ℓ', List.mem_filter.2 ⟨hℓ', by simpa using hns'⟩, rfl⟩

/-- **C4 (code bug).** On the five-letter pentagon example
(`VirtualSurfaceData`), the shortlex machine has 8 states and 24
transitions as the spec claims, but the geodesic machine has 16 states
and 60 transitions (exactly what `test_rips_fsms` asserts at
testing.py lines 64-65), not 11 and 40: line 215 of
rips_fsm_generator.py writes `NextName = (nextletter)` — a bare
string, not a one-tuple — so each of the five one-letter states exists
twice, once as a string label and once as a tuple label, adding 5
states and 20 transitions.  Both BFS runs terminate (empty leftover
frontier), so these are the machines the source builds. -/
theorem pentagon_machine_sizes :
    (shortlexMachine cmap5 omap5 alpha5 100).states.length = 8
    ∧ (shortlexMachine cmap5 omap5 alpha5 100).trans.length = 24
    ∧ (shortlexBuild cmap5 omap5 alpha5 100).leftover = []
    ∧ (geodesicMachine cmap5 omap5 alpha5 200).states.length = 16
    ∧ (geodesicMachine cmap5 omap5 alpha5 200).trans.length = 60
    ∧ (geodesicBuild cmap5 omap5 alpha5 200).leftover = []
    ∧ PyLabel.str ['a'] ∈ (geodesicMachine cmap5 omap5 alpha5 200).states
    ∧ PyLabel.tup ['a'] ∈ (geodesicMachine cmap5 omap5 alpha5 200).states := by
  refine ⟨by decide, by decide, by decide, by decide, by decide, by decide,
    by decide, by decide⟩

def cmapAsym : Char → List Char := fun c =>
  if c = 'a' then ['b'] else []

def omapBad : List (Char × ℕ) := [('a', 0), ('b', 0)]

def omap5List : List (Char × ℕ) :=
  [('a', 0), ('b', 1), ('c', 2), ('d', 3), ('e', 4)]

theorem geodesicLoop_trans_mono (cm : Char → List Char) (om : Char → ℕ)
    (ra : List Char) :
    ∀ (fuel : ℕ) (frontier states : List PyLabel)
      (tacc : List (PyLabel × Char × PyLabel)) (t : _),
      t ∈ tacc → t ∈ (geodesicLoop cm om ra fuel frontier states tacc).transAcc := by
  intro fuel
  induction fuel with
  | zero => intro frontier states tacc t ht; exact ht
  | succ n ih =>
    intro frontier states tacc t ht
    cases frontier with
    | nil => exact ht
    | cons s rest =>
      simp only [geodesicLoop]
      split
      · exact ih _ _ _ _ ht
      · exact ih _ _ _ _ (List.mem_append_left _ ht)

/-- **C6.** In the shortlex machine: every generated transition leaves
a reachable state `S` on a letter `ℓ` of the restricted alphabet with
`ℓ ∉ S`, and its target label is (as a set of letters)
`(S ∩ commute(ℓ)) ∪ (lesser_star(ℓ) ∩ restricted) ∪ {ℓ}`; conversely
every processed state has such a transition for every candidate
letter; every state of the machine is final; and the empty restricted
alphabet yields the single-state machine accepting only the empty
word. -/
theorem shortlex_transition_formula (cm : Char → List Char)
    (om : Char → ℕ) (ra : List Char) (fuel : ℕ) :
    (∀ t ∈ (shortlexBuild cm om ra fuel).transAcc,
        t.2.1 ∈ ra ∧ t.2.1 ∉ t.1
        ∧ ∀ x, x ∈ t.2.2 ↔
            ((x ∈ t.1 ∧ x ∈ cm t.2.1)
             ∨ (x ∈ lesserStar cm om t.2.1 ∧ x ∈ ra) ∨ x = t.2.1))
    ∧ (∀ s ∈ (shortlexBuild cm om ra fuel).statesAcc, ∀ ℓ ∈ ra, ℓ ∉ s →
        (s, ℓ, shortlexStep cm om ra s ℓ)
          ∈ (shortlexBuild cm om ra fuel).transAcc)
    ∧ (shortlexMachine cm om ra fuel).finals
        = (shortlexMachine cm om ra fuel).states
    ∧ shortlexMachine cm om [] fuel
        = ⟨["origin".toList], "origin".toList, ["origin".toList], []⟩ := by
  refine ⟨?_, ?_, ?_, ?_⟩
  · intro t ht
    have hshape : t.2.1 ∈ ra ∧ t.2.1 ∉ t.1
        ∧ t.2.2 = shortlexStep cm om ra t.1 t.2.1 := by
      refine shortlexLoop_trans_inv cm om ra
        (fun t => t.2.1 ∈ ra ∧ t.2.1 ∉ t.1
          ∧ t.2.2 = shortlexStep cm om ra t.1 t.2.1) ?_ fuel _ _ _ ?_ t ht
      · intro s ℓ h1 h2; exact ⟨h1, h2, rfl⟩
      · intro u hu
        obtain ⟨ℓ, hℓ, hu'⟩ := List.mem_map.1 hu
        rw [← hu']
        exact ⟨hℓ, by simp, rfl⟩
    refine ⟨hshape.1, hshape.2.1, ?_⟩
    intro x
    rw [hshape.2.2]
    exact mem_shortlexStep cm om ra t.1 t.2.1 x
  · refine shortlexLoop_states_inv cm om ra fuel _ _ _ ?_
    intro s hs ℓ hℓ hns
    rw [List.mem_singleton] at hs
    subst hs
    apply List.mem_map.2
    exact ⟨ℓ, hℓ, rfl⟩
  · unfold shortlexMachine
    split
    · rfl
    · rfl
  · unfold shortlexMachine
    rw [if_pos rfl]

/-- Witness for C6 at the pentagon example: the empty label is a
processed state, `'a'` is a candidate letter there, and the generated
transition carries the formula label. -/
theorem shortlex_transition_formula_witness :
    ([] ∈ (shortlexBuild cmap5 omap5 alpha5 100).statesAcc)
    ∧ (([], 'a', shortlexStep cmap5 omap5 alpha5 [] 'a')
        ∈ (shortlexBuild cmap5 omap5 alpha5 100).transAcc)
    ∧ shortlexStep cmap5 omap5 alpha5 [] 'a' = ['a'] :=
  ⟨by decide,
   (shortlex_transition_formula cmap5 omap5 alpha5 100).2.1 []
     (by decide) 'a' (by decide) (by decide),
   by decide⟩

/-- **C7 (counterexample).** `Rips_FSM_Generator.__init__` accepts an
asymmetric commutation dictionary together with a non-injective order
without raising: with `c_map = {a: {b}, b: {}}`,
`o_map = {a: 0, b: 0}` and ray `(b, a)` construction succeeds even
though `b` commutes with `a` but not conversely and the order values
collide. -/
theorem rips_init_accepts_malformed :
    ripsInit cmapAsym omapBad ['b', 'a'] = .ok ()
    ∧ 'b' ∈ cmapAsym 'a'
    ∧ (cmapAsym 'b').contains 'a' = false
    ∧ decide ((omapBad.map (fun p => p.2)).Nodup) = false := by
  refine ⟨rfl, by decide, by decide, by decide⟩

/-- **C7 (amended).** The divergence generator's constructor rejects
malformed rays, non-injective orders and asymmetric commutation
relations (success implies all three conditions); the Rips generator's
constructor checks only the ray (its docstring says symmetry is the
caller's responsibility), as witnessed separately; and a restricted
alphabet that is not a subset of the generator's alphabet is rejected
by the machine generators themselves before any BFS runs. -/
theorem generator_validation (cm : Char → List Char)
    (omap : List (Char × ℕ)) (ray : List Char) (alphabet : List Char)
    (om : Char → ℕ) (ra : List Char) (fuel : ℕ) :
    (divInit cm omap ray = .ok () →
       ((omap.map (fun p => p.2)).Nodup
        ∧ (∀ a ∈ omap.map (fun p : Char × ℕ => p.1), ∀ b ∈ cm a, a ∈ cm b)
        ∧ ∃ r0 r1, ray = [r0, r1] ∧ r1 ∉ cm r0))
    ∧ (ripsInit cm omap ray = .ok () →
        ∃ r0 r1, ray = [r0, r1] ∧ r1 ∉ cm r0)
    ∧ (¬ (∀ x ∈ ra, x ∈ alphabet) →
        shortlexMachineChecked alphabet cm om ra fuel = .error .notSubset
        ∧ geodesicMachineChecked alphabet cm om ra fuel
            = .error .notSubset) := by
  refine ⟨?_, ?_, ?_⟩
  · intro hok
    rcases ray with _ | ⟨r0, tail⟩
    · simp [divInit] at hok
    · rcases tail with _ | ⟨r1, tail2⟩
      · simp [divInit] at hok
      · rcases tail2 with _ | ⟨r2, tail3⟩
        · simp only [divInit] at hok
          by_cases h1 : r1 ∈ cm r0
          · rw [if_pos h1] at hok; exact absurd hok (by simp)
          · rw [if_neg h1] at hok
            by_cases h2 : (omap.map (fun p => p.2)).Nodup
            · rw [if_neg (not_not.mpr h2)] at hok
              by_cases h3 : ∀ a ∈ omap.map (fun p : Char × ℕ => p.1),
                  ∀ b ∈ cm a, a ∈ cm b
              · exact ⟨h2, h3, r0, r1, rfl, h1⟩
              · rw [if_pos h3] at hok; exact absurd hok (by simp)
            · rw [if_pos h2] at hok; exact absurd hok (by simp)
        · simp [divInit] at hok
  · intro hok
    rcases ray with _ | ⟨r0, tail⟩
    · simp [ripsInit] at hok
    · rcases tail with _ | ⟨r1, tail2⟩
      · simp [ripsInit] at hok
      · rcases tail2 with _ | ⟨r2, tail3⟩
        · simp only [ripsInit] at hok
          by_cases h1 : r1 ∈ cm r0
          · rw [if_pos h1] at hok; exact absurd hok (by simp)
          · exact ⟨r0, r1, rfl, h1⟩
        · simp [ripsInit] at hok
  · intro hsub
    unfold shortlexMachineChecked geodesicMachineChecked
    rw [if_pos hsub, if_pos hsub]
    exact ⟨rfl, rfl⟩

/-- Witness for C7 on the pentagon data: the divergence constructor
accepts it, so its validated properties hold there; and a restricted
alphabet containing a letter outside the alphabet is rejected. -/
theorem generator_validation_witness :
    ((omap5List.map (fun p => p.2)).Nodup
     ∧ (∀ a ∈ omap5List.map (fun p : Char × ℕ => p.1),
          ∀ b ∈ cmap5 a, a ∈ cmap5 b)
     ∧ ∃ r0 r1, (['a', 'c'] : List Char) = [r0, r1] ∧ r1 ∉ cmap5 r0)
    ∧ shortlexMachineChecked alpha5 cmap5 omap5 ['z'] 5
        = .error .notSubset := by
  have h1 : divInit cmap5 omap5List ['a', 'c'] = .ok () := rfl
  have h2 : ¬ (∀ x ∈ (['z'] : List Char), x ∈ alpha5) := by decide
  exact ⟨(generator_validation cmap5 omap5List ['a', 'c'] alpha5 omap5
    ['z'] 5).1 h1,
    ((generator_validation cmap5 omap5List ['a', 'c'] alpha5 omap5
      ['z'] 5).2.2 h2).1⟩

/-- **C10 (code bug).** Even on the empty input tape `process` raises
`TypeError`: the line-301 `hasattr` guard runs before the (empty)
loop, so `process` never returns `(initial.is_final, initial.label)`
as claimed.  The recognition loop behind the guard (lines 304-312)
does return exactly that pair on the empty tape, and the generator
halves of the claim hold: the shortlex and geodesic generators mark
their start states final, so every machine they build accepts the
empty word. -/
theorem process_empty_input (cm : Char → List Char) (om : Char → ℕ)
    (ra : List Char) (fuel : ℕ) :
    (∀ (M : MWEAutomaton L S), process M [] = .error .typeErr)
    ∧ (∀ (M : MWEAutomaton L S),
        processFrom M M.initial [] = (M.initial.is_final, some M.initial.label))
    ∧ saccepts (shortlexMachine cm om ra fuel) [] = true
    ∧ saccepts (geodesicMachine cm om ra fuel) [] = true := by
  refine ⟨fun M => rfl, fun M => rfl, ?_, ?_⟩
  · have : (shortlexMachine cm om ra fuel).initial
        ∈ (shortlexMachine cm om ra fuel).finals := by
      unfold shortlexMachine
      rcases hra : ra with _ | ⟨c, rest⟩
      · rw [if_pos rfl]; simp
      · rw [if_neg (by simp)]
        simp only
        rw [mem_transStates]
        refine ⟨(([] : List Char), c, pySortedTuple om
          ((lesserStar cm om c).filter (fun x => decide (x ∈ c :: rest))
            ++ [c])), ?_, Or.inl rfl⟩
        apply shortlexLoop_trans_mono
        apply List.mem_map.2
        exact ⟨c, by simp, rfl⟩
    unfold saccepts
    simp [reachSet, this]
  · have : (geodesicMachine cm om ra fuel).initial
        ∈ (geodesicMachine cm om ra fuel).finals := by
      unfold geodesicMachine
      rcases hra : ra with _ | ⟨c, rest⟩
      · rw [if_pos rfl]; simp
      · rw [if_neg (by simp)]
        simp only
        rw [mem_transStates]
        refine ⟨(PyLabel.tup [], c, PyLabel.str [c]), ?_, Or.inl rfl⟩
        apply geodesicLoop_trans_mono
        apply List.mem_map.2
        exact ⟨c, by simp, rfl⟩
    unfold saccepts
    simp [reachSet, this]

/-! ## Part 4: the label freeze/thaw helpers of
`divergence_fsm_generator.py` (C9)

An edge-checker state label is an 11-tuple (sometimes with a 12th
`'final'` tag appended, line 735): indices 0,2,4,6 hold words (as
`Word` objects in mutable form, tuples in hashable form — a `Word`
wraps its `word_as_list`, and `word_as_tuple()` returns
`tuple(word_as_list)`, words.py lines 24-58); indices 1,3,5,7 hold
first-letter data, a sequence of pairs whose components are sets in
mutable form and sorted tuples in hashable form; indices 8 and 9 hold
letter sets / sorted tuples; index 10 is a pair of integers that
neither helper touches.  Sets are represented by duplicate-free lists;
freezing sorts them with `pySortedTuple`. -/

structure DivLabel where
  w0 : List Char
  fl1 : List (List Char × List Char)
  w2 : List Char
  fl3 : List (List Char × List Char)
  w4 : List Char
  fl5 : List (List Char × List Char)
  w6 : List Char
  fl7 : List (List Char × List Char)
  unc8 : List Char
  acc9 : List Char
  idx10 : ℕ × ℕ
  marker : Option (List Char)
deriving DecidableEq, Repr

/-- `_mutable_label` (divergence_fsm_generator.py lines 740-758): copy
the label, replace each word tuple by `Word(tuple)` (whose
`word_as_list` is `list(tuple)`, in order), each first-letter pair of
tuples by a pair of sets, and entries 8 and 9 by sets; entries 10 and
the optional tag pass through. -/
def mutableLabel (h : DivLabel) : DivLabel :=
  { w0 := h.w0
    fl1 := h.fl1.map (fun p => (p.1, p.2))
    w2 := h.w2
    fl3 := h.fl3.map (fun p => (p.1, p.2))
    w4 := h.w4
    fl5 := h.fl5.map (fun p => (p.1, p.2))
    w6 := h.w6
    fl7 := h.fl7.map (fun p => (p.1, p.2))
    unc8 := h.unc8
    acc9 := h.acc9
    idx10 := h.idx10
    marker := h.marker }

/-- `_hashable_label` (divergence_fsm_generator.py lines 760-783):
replace each word by `word_as_tuple()`, each first-letter pair of sets
by the pair of its sorted tuples (sorted by the total order, lines
770-774), and the letter sets at 8 and 9 by their sorted tuples (lines
778-781). -/
def hashableLabel (om : Char → ℕ) (m : DivLabel) : DivLabel :=
  { w0 := m.w0
    fl1 := m.fl1.map (fun p => (pySortedTuple om p.1, pySortedTuple om p.2))
    w2 := m.w2
    fl3 := m.fl3.map (fun p => (pySortedTuple om p.1, pySortedTuple om p.2))
    w4 := m.w4
    fl5 := m.fl5.map (fun p => (pySortedTuple om p.1, pySortedTuple om p.2))
    w6 := m.w6
    fl7 := m.fl7.map (fun p => (pySortedTuple om p.1, pySortedTuple om p.2))
    unc8 := pySortedTuple om m.unc8
    acc9 := pySortedTuple om m.acc9
    idx10 := m.idx10
    marker := m.marker }

/-- A tuple that is strictly sorted by the total order (the form
`_hashable_label` produces for a set of letters under an injective
order). -/
def strictSorted (om : Char → ℕ) (l : List Char) : Prop :=
  l.Pairwise (fun a b => om a < om b)

instance (om : Char → ℕ) (l : List Char) : Decidable (strictSorted om l) := by
  unfold strictSorted; infer_instance

theorem pySortedTuple_of_strictSorted (om : Char → ℕ) (l : List Char)
    (hs : strictSorted om l) : pySortedTuple om l = l := by
  unfold pySortedTuple
  have hnodup : l.Nodup := by
    refine hs.imp ?_
    intro a b hab
    intro hEq
    rw [hEq] at hab
    exact lt_irrefl _ hab
  rw [List.dedup_eq_self.2 hnodup]
  exact List.Sorted.insertionSort_eq (hs.imp (fun hab => le_of_lt hab))

theorem map_id_of_mem {α : Type} (f : α → α) :
    ∀ l : List α, (∀ x ∈ l, f x = x) → l.map f = l := by
  intro l
  induction l with
  | nil => intro _; rfl
  | cons x rest ih =>
    intro h
    simp only [List.map_cons]
    rw [h x (by simp), ih (fun y hy => h y (by simp [hy]))]

/-- **C9.** For a well-formed hashable label (first-letter data and
letter sets stored as strictly sorted tuples), thawing with
`_mutable_label` and re-freezing with `_hashable_label` reproduces the
original label. -/
theorem label_freeze_thaw (om : Char → ℕ) (h : DivLabel)
    (hfl1 : ∀ p ∈ h.fl1, strictSorted om p.1 ∧ strictSorted om p.2)
    (hfl3 : ∀ p ∈ h.fl3, strictSorted om p.1 ∧ strictSorted om p.2)
    (hfl5 : ∀ p ∈ h.fl5, strictSorted om p.1 ∧ strictSorted om p.2)
    (hfl7 : ∀ p ∈ h.fl7, strictSorted om p.1 ∧ strictSorted om p.2)
    (h8 : strictSorted om h.unc8) (h9 : strictSorted om h.acc9) :
    hashableLabel om (mutableLabel h) = h := by
  have hmap : ∀ (l : List (List Char × List Char)),
      (∀ p ∈ l, strictSorted om p.1 ∧ strictSorted om p.2) →
      (l.map (fun p => (p.1, p.2))).map
        (fun p => (pySortedTuple om p.1, pySortedTuple om p.2)) = l := by
    intro l hl
    have : l.map (fun p : List Char × List Char => (p.1, p.2)) = l :=
      map_id_of_mem _ l (fun p _ => rfl)
    rw [this]
    apply map_id_of_mem
    intro p hp
    rw [pySortedTuple_of_strictSorted om p.1 (hl p hp).1,
      pySortedTuple_of_strictSorted om p.2 (hl p hp).2]
  unfold mutableLabel hashableLabel
  simp only
  rw [show (h.fl1.map (fun p => (p.1, p.2))).map
        (fun p => (pySortedTuple om p.1, pySortedTuple om p.2)) = h.fl1
      from hmap _ hfl1,
    show (h.fl3.map (fun p => (p.1, p.2))).map
        (fun p => (pySortedTuple om p.1, pySortedTuple om p.2)) = h.fl3
      from hmap _ hfl3,
    show (h.fl5.map (fun p => (p.1, p.2))).map
        (fun p => (pySortedTuple om p.1, pySortedTuple om p.2)) = h.fl5
      from hmap _ hfl5,
    show (h.fl7.map (fun p => (p.1, p.2))).map
        (fun p => (pySortedTuple om p.1, pySortedTuple om p.2)) = h.fl7
      from hmap _ hfl7,
    pySortedTuple_of_strictSorted om h.unc8 h8,
    pySortedTuple_of_strictSorted om h.acc9 h9]

def exDivLabel : DivLabel :=
  { w0 := ['a', 'b'], fl1 := [(['a'], ['a', 'c'])], w2 := ['c'],
    fl3 := [], w4 := [], fl5 := [(['b'], [])], w6 := ['e', 'a'],
    fl7 := [([], ['d'])], unc8 := ['a', 'd'], acc9 := ['b', 'c', 'e'],
    idx10 := (1, 1), marker := some ['f'] }

/-- Witness for C9 at a concrete well-formed label over the pentagon
order. -/
theorem label_freeze_thaw_witness :
    hashableLabel omap5 (mutableLabel exDivLabel) = exDivLabel :=
  label_freeze_thaw omap5 exDivLabel (by decide) (by decide) (by decide)
    (by decide) (by decide) (by decide)

end Horospheres
